import Mathlib

/- Verification of the product-catalog repository's core logic against its
natural-language specification.  Each section embeds one source module as
executable Lean definitions (translated from the JavaScript source), followed
by theorems settling the specification claims about that module.

Modelling conventions, used throughout:
  - JavaScript numbers are modelled as rationals (ℚ); the claims under study
    never depend on floating-point rounding.
  - Record ids are modelled as naturals; the source accepts string or number
    ids but no claim depends on the id type.
  - JavaScript array methods (filter, map, findIndex, push, sort) are
    modelled by the corresponding list operations; object field maps are
    association lists in insertion order.
-/

namespace ProductCatalog

namespace Cart

/- Embedding of src/store/cartStore.js.  A cart line item carries the fields
the claims depend on (id, price, quantity); the remaining fields (title,
image, metadata) are payload that no cart operation inspects. -/

structure Item where
  id : Nat
  price : ℚ
  quantity : ℚ
  deriving DecidableEq, Repr

structure CartState where
  items : List Item
  totalItems : ℚ
  totalPrice : ℚ
  isEmpty : Bool
  deriving DecidableEq, Repr

/-- Source `calculateTotals`: `items.reduce((total, item) => total + item.quantity, 0)`. -/
def calculateTotalItems (items : List Item) : ℚ :=
  items.foldl (fun total item => total + item.quantity) 0

/-- Source `calculateTotals`: `items.reduce((total, item) => total + item.price * item.quantity, 0)`. -/
def calculateTotalPrice (items : List Item) : ℚ :=
  items.foldl (fun total item => total + item.price * item.quantity) 0

/-- Every mutator returns `{ items: updatedItems, ...calculateTotals(updatedItems) }`;
`mkState` is that common result shape (`isEmpty` is `items.length === 0`). -/
def mkState (items : List Item) : CartState :=
  { items := items
    totalItems := calculateTotalItems items
    totalPrice := calculateTotalPrice items
    isEmpty := items.isEmpty }

/-- Source `initialState`. -/
def initialState : CartState :=
  { items := [], totalItems := 0, totalPrice := 0, isEmpty := true }

/-- Source `addItem` body on the items array: `findIndex` on id; if found,
increment that (first) line's quantity, otherwise push `{...defaultItem,
...item, quantity}` at the end. -/
def addItemList (item : Item) (quantity : ℚ) : List Item → List Item
  | [] => [{ item with quantity := quantity }]
  | x :: xs =>
      if x.id = item.id then { x with quantity := x.quantity + quantity } :: xs
      else x :: addItemList item quantity xs

/-- Source `addItem(item, quantity = 1)`. -/
def addItem (item : Item) (quantity : ℚ) (s : CartState) : CartState :=
  mkState (addItemList item quantity s.items)

/-- Source `removeItem`: `items.filter(item => item.id !== itemId)`. -/
def removeItem (itemId : Nat) (s : CartState) : CartState :=
  mkState (s.items.filter fun x => x.id != itemId)

/-- Source `updateQuantity`: `if (quantity <= 0) { get().removeItem(itemId); return; }`
else map the matching line to the new quantity. -/
def updateQuantity (itemId : Nat) (quantity : ℚ) (s : CartState) : CartState :=
  if quantity ≤ 0 then removeItem itemId s
  else mkState (s.items.map fun x => if x.id = itemId then { x with quantity := quantity } else x)

/-- Source `incrementItem`. -/
def incrementItem (itemId : Nat) (amount : ℚ) (s : CartState) : CartState :=
  mkState (s.items.map fun x =>
    if x.id = itemId then { x with quantity := x.quantity + amount } else x)

/-- Source `decrementItem`: lines with the id whose new quantity is `<= 0`
are mapped to `null` and filtered out. -/
def decrementItem (itemId : Nat) (amount : ℚ) (s : CartState) : CartState :=
  mkState (s.items.filterMap fun x =>
    if x.id = itemId then
      (if x.quantity - amount ≤ 0 then none else some { x with quantity := x.quantity - amount })
    else some x)

/-- Source `clearCart`: `set(initialState)`. -/
def clearCart (_s : CartState) : CartState :=
  initialState

/-- Source `addMultipleItems`: each entry is added with effective quantity
`item.quantity || 1` (a zero quantity is falsy and becomes 1), via the same
find-or-push logic as `addItem`. -/
def addMultipleItems (newItems : List Item) (s : CartState) : CartState :=
  mkState (newItems.foldl
    (fun acc item => addItemList item (if item.quantity = 0 then 1 else item.quantity) acc)
    s.items)

/-- Source `removeMultipleItems`: `items.filter(item => !itemIds.includes(item.id))`. -/
def removeMultipleItems (itemIds : List Nat) (s : CartState) : CartState :=
  mkState (s.items.filter fun x => !(itemIds.contains x.id))

/-- Source `updateMultipleQuantities`: lines whose id is a key of `updates`
get the new quantity, dropped when it is `<= 0`. -/
def updateMultipleQuantities (updates : List (Nat × ℚ)) (s : CartState) : CartState :=
  mkState (s.items.filterMap fun x =>
    match updates.lookup x.id with
    | some q => if q ≤ 0 then none else some { x with quantity := q }
    | none => some x)

/-- The cart store operations reachable from the public API. -/
inductive CartOp where
  | addItem (item : Item) (quantity : ℚ)
  | removeItem (itemId : Nat)
  | updateQuantity (itemId : Nat) (quantity : ℚ)
  | incrementItem (itemId : Nat) (amount : ℚ)
  | decrementItem (itemId : Nat) (amount : ℚ)
  | clearCart
  | addMultipleItems (items : List Item)
  | removeMultipleItems (itemIds : List Nat)
  | updateMultipleQuantities (updates : List (Nat × ℚ))
  deriving DecidableEq, Repr

def step (s : CartState) : CartOp → CartState
  | .addItem item quantity => addItem item quantity s
  | .removeItem itemId => removeItem itemId s
  | .updateQuantity itemId quantity => updateQuantity itemId quantity s
  | .incrementItem itemId amount => incrementItem itemId amount s
  | .decrementItem itemId amount => decrementItem itemId amount s
  | .clearCart => clearCart s
  | .addMultipleItems items => addMultipleItems items s
  | .removeMultipleItems itemIds => removeMultipleItems itemIds s
  | .updateMultipleQuantities updates => updateMultipleQuantities updates s

/-- A reachable cart state: the fold of a sequence of operations from the
initial state. -/
def runOps (ops : List CartOp) : CartState :=
  ops.foldl step initialState

/-- The derived-totals invariant of the specification: totals are exactly
the stated functions of the item list. -/
def totalsInvariant (s : CartState) : Prop :=
  s.totalItems = (s.items.map Item.quantity).sum ∧
  s.totalPrice = (s.items.map fun x => x.price * x.quantity).sum ∧
  (s.isEmpty = true ↔ s.items = [])

lemma foldl_add_map (f : Item → ℚ) (a : ℚ) (l : List Item) :
    l.foldl (fun t x => t + f x) a = a + (l.map f).sum := by
  induction l generalizing a with
  | nil => simp
  | cons x xs ih => simp [ih, add_assoc]

lemma totalsInvariant_mkState (l : List Item) : totalsInvariant (mkState l) := by
  refine ⟨?_, ?_, ?_⟩
  · simpa using foldl_add_map Item.quantity 0 l
  · simpa using foldl_add_map (fun x => x.price * x.quantity) 0 l
  · simp [mkState, List.isEmpty_iff]

lemma totalsInvariant_initialState : totalsInvariant initialState := by
  refine ⟨rfl, rfl, by simp [initialState]⟩

lemma totalsInvariant_step (s : CartState) (op : CartOp) : totalsInvariant (step s op) := by
  cases op with
  | updateQuantity itemId quantity =>
      by_cases h : quantity ≤ 0
      · simpa [step, updateQuantity, h, removeItem] using
          totalsInvariant_mkState (s.items.filter fun x => x.id != itemId)
      · simpa [step, updateQuantity, h] using totalsInvariant_mkState _
  | clearCart => exact totalsInvariant_initialState
  | _ => exact totalsInvariant_mkState _

lemma totalsInvariant_foldl (ops : List CartOp) (s : CartState)
    (hs : totalsInvariant s) : totalsInvariant (ops.foldl step s) := by
  induction ops generalizing s with
  | nil => exact hs
  | cons op rest ih => exact ih (step s op) (totalsInvariant_step s op)

/-- C4: for every reachable cart state (any sequence of cart store
operations), `totalItems` equals the sum of the items' quantities,
`totalPrice` equals the sum of price times quantity over the items, and
`isEmpty` holds exactly when the item list is empty. -/
theorem c4_cart_totals_invariant (ops : List CartOp) :
    (runOps ops).totalItems = ((runOps ops).items.map Item.quantity).sum ∧
    (runOps ops).totalPrice = ((runOps ops).items.map fun x => x.price * x.quantity).sum ∧
    ((runOps ops).isEmpty = true ↔ (runOps ops).items = []) :=
  totalsInvariant_foldl ops initialState totalsInvariant_initialState

lemma mem_decrementItem {s : CartState} {itemId : Nat} {amount : ℚ} {m : Item}
    (hm : m ∈ (decrementItem itemId amount s).items) :
    ∃ a ∈ s.items,
      (if a.id = itemId then
        (if a.quantity - amount ≤ 0 then none
         else some { a with quantity := a.quantity - amount })
       else some a) = some m := by
  simpa [decrementItem, mkState, List.mem_filterMap] using hm

/-- C5 (amended): for a cart state with a line of id `x` and quantity `q`,
`updateQuantity(x, n)` with `n ≤ 0` is the same state transition as
`removeItem(x)`, and `decrementItem(x, amount)` with `amount ≥ q` removes
that line; after either operation no line with id `x` and quantity `≤ 0`
remains, and every surviving line of a different id is an unchanged line of
the original cart (so no new non-positive line is introduced; a pre-existing
non-positive line under a different id may persist). -/
theorem c5_nonpositive_quantity_removal (s : CartState) (x : Nat) (n amount : ℚ)
    (hn : n ≤ 0) :
    updateQuantity x n s = removeItem x s ∧
    (∀ m ∈ (updateQuantity x n s).items, m.id ≠ x) ∧
    (∀ m ∈ (decrementItem x amount s).items, m.id = x → 0 < m.quantity) ∧
    ((∀ ln ∈ s.items, ln.id = x → ln.quantity ≤ amount) →
      ∀ m ∈ (decrementItem x amount s).items, m.id ≠ x) ∧
    (∀ m ∈ (decrementItem x amount s).items, m.id ≠ x → m ∈ s.items) := by
  refine ⟨by simp [updateQuantity, hn], ?_, ?_, ?_, ?_⟩
  · intro m hm
    rw [updateQuantity, if_pos hn] at hm
    simp only [removeItem, mkState, List.mem_filter, bne_iff_ne, ne_eq] at hm
    exact hm.2
  · intro m hm hmx
    obtain ⟨a, _, ha⟩ := mem_decrementItem hm
    by_cases hid : a.id = x
    · rw [if_pos hid] at ha
      by_cases hq : a.quantity - amount ≤ 0
      · simp [hq] at ha
      · rw [if_neg hq] at ha
        have hma : ({ a with quantity := a.quantity - amount } : Item) = m :=
          Option.some.inj ha
        rw [← hma]
        simpa using lt_of_not_le hq
    · rw [if_neg hid] at ha
      rw [← Option.some.inj ha] at hmx
      exact absurd hmx hid
  · intro hall m hm
    obtain ⟨a, hmem, ha⟩ := mem_decrementItem hm
    by_cases hid : a.id = x
    · have hq : a.quantity - amount ≤ 0 := by
        have := hall a hmem hid
        linarith
      simp [hid, hq] at ha
    · rw [if_neg hid] at ha
      rw [← Option.some.inj ha]
      exact hid
  · intro m hm hne
    obtain ⟨a, hmem, ha⟩ := mem_decrementItem hm
    by_cases hid : a.id = x
    · by_cases hq : a.quantity - amount ≤ 0
      · simp [hid, hq] at ha
      · rw [if_pos hid, if_neg hq] at ha
        have hma : ({ a with quantity := a.quantity - amount } : Item) = m :=
          Option.some.inj ha
        rw [← hma] at hne
        exact absurd hid hne
    · rw [if_neg hid] at ha
      rw [← Option.some.inj ha]
      exact hmem

/-- Witness for C5 at a concrete cart: updating id 1 to quantity 0 in the
one-line cart `[⟨1, 2, 3⟩]` is the same as removing it. -/
theorem c5_nonpositive_quantity_removal_witness :
    updateQuantity 1 0 (mkState [⟨1, 2, 3⟩]) = removeItem 1 (mkState [⟨1, 2, 3⟩]) :=
  (c5_nonpositive_quantity_removal (mkState [⟨1, 2, 3⟩]) 1 0 5 (by norm_num)).1

/-- Counterexample to C5 as stated: in the reachable cart built by
`addItem(⟨id 1⟩, -2)` then `addItem(⟨id 2⟩, 5)`, running
`decrementItem(2, 5)` (amount equal to that line's quantity) leaves the
line of id 1 with quantity `-2 ≤ 0` in the cart, so "after either operation
no line with quantity ≤ 0 remains" fails. -/
theorem c5_counterexample :
    (runOps [.addItem ⟨1, 2, 0⟩ (-2), .addItem ⟨2, 3, 0⟩ 5, .decrementItem 2 5]).items
      = [{ id := 1, price := 2, quantity := -2 }] ∧
    ({ id := 1, price := 2, quantity := -2 } : Item).quantity ≤ 0 := by
  refine ⟨?_, by norm_num⟩
  norm_num [runOps, step, addItem, addItemList, decrementItem, mkState,
    calculateTotalItems, calculateTotalPrice, initialState,
    List.filterMap_cons, List.filterMap_nil]

lemma addItemList_of_absent (item : Item) (q : ℚ) (l : List Item)
    (habs : ∀ y ∈ l, y.id ≠ item.id) :
    addItemList item q l = l ++ [{ item with quantity := q }] := by
  induction l with
  | nil => rfl
  | cons x xs ih =>
      have hx : x.id ≠ item.id := habs x (by simp)
      simp only [addItemList, if_neg hx]
      rw [ih fun y hy => habs y (by simp [hy])]
      rfl

/-- C10: adding an item whose id is absent from the cart with a quantity
`n ≤ 0` appends a new line whose quantity is exactly `n`, so the resulting
cart observably contains a line with non-positive quantity. -/
theorem c10_addItem_negative_quantity (s : CartState) (item : Item) (n : ℚ)
    (habs : ∀ y ∈ s.items, y.id ≠ item.id) (hn : n ≤ 0) :
    (addItem item n s).items = s.items ++ [{ item with quantity := n }] ∧
    { item with quantity := n } ∈ (addItem item n s).items ∧
    ({ item with quantity := n } : Item).quantity ≤ 0 := by
  have h := addItemList_of_absent item n s.items habs
  refine ⟨h, ?_, hn⟩
  rw [addItem, mkState]
  simp [h]

/-- Witness for C10: adding id 1 with quantity `-2` to the empty cart yields
the single line `⟨1, 5, -2⟩`. -/
theorem c10_addItem_negative_quantity_witness :
    (addItem ⟨1, 5, 0⟩ (-2) initialState).items
      = initialState.items ++ [{ id := 1, price := 5, quantity := -2 }] :=
  (c10_addItem_negative_quantity initialState ⟨1, 5, 0⟩ (-2) (by decide) (by norm_num)).1

end Cart

namespace Wishlist

/- Embedding of the wishlist store (src/unnamed/part_003, wishlistStore).
A wishlist item carries no quantity; title stands for the payload fields
(title, price, image, metadata) that the store never inspects. -/

structure WItem where
  id : Nat
  title : String
  deriving DecidableEq, Repr

structure WishState where
  items : List WItem
  totalItems : Nat
  isEmpty : Bool
  deriving DecidableEq, Repr

/-- Common result shape: `{ items: updatedItems, ...calculateTotals(updatedItems) }`
with wishlist `calculateTotals` being `{ totalItems: items.length, isEmpty: items.length === 0 }`. -/
def mkWState (items : List WItem) : WishState :=
  { items := items, totalItems := items.length, isEmpty := items.isEmpty }

/-- Source `initialState`. -/
def winitialState : WishState :=
  { items := [], totalItems := 0, isEmpty := true }

/-- Source `addItem`: if `find` locates an existing item with the id, the
state is returned unchanged; otherwise the new item is pushed at the end. -/
def addItem (item : WItem) (s : WishState) : WishState :=
  if (s.items.find? fun w => w.id == item.id).isSome then s
  else mkWState (s.items ++ [item])

/-- Source `removeItem`: `items.filter(item => item.id !== itemId)`. -/
def removeItem (itemId : Nat) (s : WishState) : WishState :=
  mkWState (s.items.filter fun w => w.id != itemId)

/-- Source `isItemInWishlist`: `items.some(w => w.id === itemId)`. -/
def isItemInWishlist (itemId : Nat) (s : WishState) : Bool :=
  s.items.any fun w => w.id == itemId

/-- Source `toggleItem`: remove and report `false` when present, add and
report `true` when absent. -/
def toggleItem (item : WItem) (s : WishState) : Bool × WishState :=
  if isItemInWishlist item.id s then (false, removeItem item.id s)
  else (true, addItem item s)

/-- Source `moveToCart(itemId, addToCartCallback)` with a provided (truthy)
callback: the second component records the `(item, quantity)` arguments of
each callback invocation, the first is the returned value. -/
def moveToCart (itemId : Nat) (s : WishState) :
    Option WItem × List (WItem × ℚ) × WishState :=
  match s.items.find? fun w => w.id == itemId with
  | some item => (some item, [(item, 1)], removeItem itemId s)
  | none => (none, [], s)

lemma isItemInWishlist_eq_false {s : WishState} {itemId : Nat}
    (habs : ∀ y ∈ s.items, y.id ≠ itemId) : isItemInWishlist itemId s = false := by
  simp only [isItemInWishlist, List.any_eq_false, beq_iff_eq]
  exact habs

/-- C6 (amended): for a wishlist whose stored totals agree with its item
list and that does not contain the toggled id, toggling twice reports
added = true then added = false and restores the exact original state; the
restriction to absent ids and consistent totals is forced by the
counterexample below. -/
theorem c6_toggle_twice_roundtrip (s : WishState) (x : WItem)
    (habs : ∀ y ∈ s.items, y.id ≠ x.id)
    (hti : s.totalItems = s.items.length)
    (hie : s.isEmpty = s.items.isEmpty) :
    (toggleItem x s).1 = true ∧
    (toggleItem x (toggleItem x s).2).1 = false ∧
    (toggleItem x (toggleItem x s).2).2 = s := by
  have hnotin : isItemInWishlist x.id s = false := isItemInWishlist_eq_false habs
  have hfind : (s.items.find? fun w => w.id == x.id) = none := by
    rw [List.find?_eq_none]
    intro y hy
    simpa using habs y hy
  have h1 : toggleItem x s = (true, mkWState (s.items ++ [x])) := by
    rw [toggleItem, hnotin]
    simp [addItem, hfind]
  have hin : isItemInWishlist x.id (mkWState (s.items ++ [x])) = true := by
    simp [isItemInWishlist, mkWState]
  have hfilter : ((s.items ++ [x]).filter fun w => w.id != x.id) = s.items := by
    rw [List.filter_append]
    have h2 : ([x].filter fun w => w.id != x.id) = [] := by simp
    have h3 : (s.items.filter fun w => w.id != x.id) = s.items := by
      rw [List.filter_eq_self]
      intro y hy
      simpa using habs y hy
    rw [h2, h3, List.append_nil]
  refine ⟨by rw [h1], ?_, ?_⟩
  · rw [h1]
    simp [toggleItem, hin]
  · rw [h1]
    simp only [toggleItem, hin, if_pos]
    obtain ⟨items, ti, ie⟩ := s
    simp only [removeItem, mkWState] at hfilter ⊢
    simp only at hti hie
    simp [hfilter, hti, hie]

/-- Witness for C6: toggling the absent item `⟨1, "a"⟩` twice on the
consistent one-item wishlist `[⟨2, "b"⟩]` restores it. -/
theorem c6_toggle_twice_roundtrip_witness :
    (toggleItem ⟨1, "a"⟩ (toggleItem ⟨1, "a"⟩ (mkWState [⟨2, "b"⟩])).2).2
      = mkWState [⟨2, "b"⟩] :=
  (c6_toggle_twice_roundtrip (mkWState [⟨2, "b"⟩]) ⟨1, "a"⟩ (by decide) rfl rfl).2.2

/-- Counterexample to C6 as stated: on the wishlist `[⟨1,"a"⟩, ⟨2,"b"⟩]`
(consistent totals), toggling the already-present item `⟨1,"a"⟩` twice
reports added = false then added = true (not true then false), and leaves
the items in the order `[⟨2,"b"⟩, ⟨1,"a"⟩]`, not the original order. -/
theorem c6_counterexample :
    (toggleItem ⟨1, "a"⟩ (mkWState [⟨1, "a"⟩, ⟨2, "b"⟩])).1 = false ∧
    (toggleItem ⟨1, "a"⟩ (toggleItem ⟨1, "a"⟩ (mkWState [⟨1, "a"⟩, ⟨2, "b"⟩])).2).1 = true ∧
    (toggleItem ⟨1, "a"⟩ (toggleItem ⟨1, "a"⟩ (mkWState [⟨1, "a"⟩, ⟨2, "b"⟩])).2).2.items
      = [⟨2, "b"⟩, ⟨1, "a"⟩] ∧
    (toggleItem ⟨1, "a"⟩ (toggleItem ⟨1, "a"⟩ (mkWState [⟨1, "a"⟩, ⟨2, "b"⟩])).2).2.items
      ≠ (mkWState [⟨1, "a"⟩, ⟨2, "b"⟩]).items := by
  decide

/-- C7: with a provided callback, `moveToCart` on an absent id leaves the
wishlist unchanged, never invokes the callback and returns undefined; on a
present id it invokes the callback exactly once with the item and
quantity 1, removes that item from the wishlist (no line with the id
survives) and returns the item. -/
theorem c7_moveToCart_atomic (s : WishState) (itemId : Nat) :
    ((∀ y ∈ s.items, y.id ≠ itemId) → moveToCart itemId s = (none, [], s)) ∧
    (∀ it, (s.items.find? fun w => w.id == itemId) = some it →
      (moveToCart itemId s).1 = some it ∧
      (moveToCart itemId s).2.1 = [(it, (1 : ℚ))] ∧
      (moveToCart itemId s).2.2.items = (s.items.filter fun w => w.id != itemId) ∧
      ∀ m ∈ (moveToCart itemId s).2.2.items, m.id ≠ itemId) := by
  constructor
  · intro habs
    have hfind : (s.items.find? fun w => w.id == itemId) = none := by
      rw [List.find?_eq_none]
      intro y hy
      simpa using habs y hy
    rw [moveToCart, hfind]
  · intro it hfind
    rw [moveToCart, hfind]
    refine ⟨rfl, rfl, rfl, ?_⟩
    intro m hm
    simp only [removeItem, mkWState, List.mem_filter, bne_iff_ne, ne_eq] at hm
    exact hm.2

/-- Witness for C7: moving id 1 out of the empty wishlist is a no-op, and
moving id 1 out of `[⟨1, "a"⟩]` returns that item. -/
theorem c7_moveToCart_atomic_witness :
    moveToCart 1 (mkWState []) = (none, [], mkWState []) ∧
    (moveToCart 1 (mkWState [⟨1, "a"⟩])).1 = some ⟨1, "a"⟩ :=
  ⟨(c7_moveToCart_atomic (mkWState []) 1).1 (by decide),
   ((c7_moveToCart_atomic (mkWState [⟨1, "a"⟩]) 1).2 ⟨1, "a"⟩ (by decide)).1⟩

end Wishlist

namespace Validate

/- Embedding of validateCartItem (src/utils/cartUtils.js).  Field values are
modelled as JavaScript values so that the source's truthiness and typeof
checks can be translated literally. -/

inductive JSVal where
  | undef
  | null
  | bool (b : Bool)
  | num (q : ℚ)
  | str (s : String)
  deriving DecidableEq, Repr

/-- JavaScript truthiness (NaN, absent from the model, is also falsy). -/
def truthy : JSVal → Bool
  | .undef => false
  | .null => false
  | .bool b => b
  | .num q => q != 0
  | .str s => s != ""

/-- `typeof v === "string"`. -/
def isString : JSVal → Bool
  | .str _ => true
  | _ => false

structure RawItem where
  id : JSVal
  title : JSVal
  price : JSVal
  quantity : JSVal
  image : JSVal
  deriving DecidableEq, Repr

structure ValidationResult where
  isValid : Bool
  errors : List String
  warnings : List String
  deriving DecidableEq, Repr

/-- Source `validateCartItem`: the four error checks in source order
(`!item.id`; `!item.title || typeof item.title !== 'string'`;
`typeof item.price !== 'number' || item.price < 0`;
`typeof item.quantity !== 'number' || item.quantity <= 0`), the image
warning, and `isValid: errors.length === 0`. -/
def validateCartItem (item : RawItem) : ValidationResult :=
  let errors : List String :=
    (if truthy item.id then [] else ["Item ID is required"]) ++
    (if truthy item.title && isString item.title then []
     else ["Item title is required and must be a string"]) ++
    (match item.price with
     | .num p => if p < 0 then ["Item price must be a non-negative number"] else []
     | _ => ["Item price must be a non-negative number"]) ++
    (match item.quantity with
     | .num q => if q ≤ 0 then ["Item quantity must be a positive number"] else []
     | _ => ["Item quantity must be a positive number"])
  let warnings : List String :=
    if truthy item.image && !(isString item.image) then ["Item image should be a string URL"]
    else []
  { isValid := errors.isEmpty, errors := errors, warnings := warnings }

/-- C8 (amended): `validateItem` always returns its `{isValid, errors,
warnings}` record, and `isValid` is true exactly when the id is truthy, the
title is a truthy (hence non-empty) string, the price is a number `≥ 0`,
and the quantity is a number `> 0` — a positive number, not necessarily an
integer. -/
theorem c8_validateItem_isValid_iff (item : RawItem) :
    (validateCartItem item).isValid = true ↔
      (truthy item.id = true ∧
       (truthy item.title = true ∧ isString item.title = true) ∧
       (∃ p : ℚ, item.price = .num p ∧ 0 ≤ p) ∧
       (∃ q : ℚ, item.quantity = .num q ∧ 0 < q)) := by
  obtain ⟨id, title, price, quantity, image⟩ := item
  cases price <;> cases quantity <;>
    simp only [validateCartItem, List.isEmpty_iff, List.append_eq_nil] <;>
    constructor <;>
    · intro h
      split_ifs at h ⊢ <;> simp_all <;> linarith

/-- Counterexample to C8 as stated: the item with id `"a"`, title `"T"`,
price 5 and quantity `1/2` is reported valid by the source, although `1/2`
is not a (positive) integer, so "quantity is a positive integer" is not
necessary for `isValid`. -/
theorem c8_counterexample :
    (validateCartItem ⟨.str "a", .str "T", .num 5, .num (1/2), .undef⟩).isValid = true ∧
    (∀ n : ℤ, (1 / 2 : ℚ) ≠ (n : ℚ)) := by
  constructor
  · norm_num [validateCartItem, truthy, isString]
    decide
  · intro n h
    have h1 : ((2 * n : ℤ) : ℚ) = ((1 : ℤ) : ℚ) := by
      push_cast
      rw [← h]
      ring
    have h2 : (2 * n : ℤ) = 1 := Int.cast_injective h1
    omega

end Validate

namespace FilterSort

/- Embedding of the client-side filter of useFilterSort (src/hooks/useFilterSort.js,
`filteredData`).  A product is reduced to the two fields the filter reads:
`item?.category?.name` (none when the record or its category lacks the
field) and `Number(item?.price)` (none models NaN, i.e. a non-numeric
price).  A price bound is none when the corresponding input string is empty;
a set bound is modelled as the parsed number (the claims under study only
exercise empty or numeric bound strings). -/

structure Product where
  category : Option String
  price : Option ℚ
  deriving DecidableEq, Repr

structure FilterState where
  selectedCategories : List String
  priceMin : Option ℚ
  priceMax : Option ℚ
  deriving DecidableEq, Repr

/-- The category clause of the source filter: with a non-empty selection, a
record passes only when its category name is truthy and selected. -/
def categoryPass (st : FilterState) (p : Product) : Bool :=
  if st.selectedCategories.isEmpty then true
  else
    match p.category with
    | some c => if c = "" then false else st.selectedCategories.contains c
    | none => false

/-- The price clause of the source filter: the bound comparisons are guarded
by `if (!isNaN(price))`, so a NaN price skips both bound checks. -/
def pricePass (st : FilterState) (p : Product) : Bool :=
  match p.price with
  | none => true
  | some q =>
      (match st.priceMin with
       | some mn => !(q < mn)
       | none => true) &&
      (match st.priceMax with
       | some mx => !(mx < q)
       | none => true)

/-- Source `filteredData` (the `applyFilters` step of the spec): keep the
records passing both clauses. -/
def filteredData (data : List Product) (st : FilterState) : List Product :=
  data.filter fun p => categoryPass st p && pricePass st p

/-- C1 (amended): a record whose price is non-numeric always passes the
price filter — whether or not a price bound is set — so it is kept exactly
when it passes the category filter. -/
theorem c1_nonnumeric_price_passes (data : List Product) (st : FilterState)
    (r : Product) (hnan : r.price = none) :
    pricePass st r = true ∧
    (r ∈ filteredData data st ↔ r ∈ data ∧ categoryPass st r = true) := by
  have hp : pricePass st r = true := by simp [pricePass, hnan]
  refine ⟨hp, ?_⟩
  simp [filteredData, List.mem_filter, hp]

/-- Witness for C1 at a concrete state: with both bounds set, the record
with NaN price passes the price filter. -/
theorem c1_nonnumeric_price_passes_witness :
    pricePass ⟨[], some 1, some 2⟩ ⟨none, none⟩ = true :=
  (c1_nonnumeric_price_passes [] ⟨[], some 1, some 2⟩ ⟨none, none⟩ rfl).1

/-- Counterexample to C1 as stated: with the min bound set to 1 and a record
whose price is non-numeric, `applyFilters` keeps the record instead of
excluding it. -/
theorem c1_counterexample :
    (⟨[], some 1, none⟩ : FilterState).priceMin ≠ none ∧
    (⟨none, none⟩ : Product).price = none ∧
    filteredData [⟨none, none⟩] ⟨[], some 1, none⟩ = [⟨none, none⟩] := by
  refine ⟨by simp, rfl, ?_⟩
  simp [filteredData, categoryPass, pricePass]

end FilterSort

namespace Search

/- Embedding of the search utilities (src/utils/price-formatter.js, search
section).  A record is a JavaScript value tree whose leaves are the strings
and nulls the catalog data carries; `String(value)` of an object is the
literal "[object Object]".  JavaScript strings are handled as lists of
characters; `toLowerCase` is a character-wise map. -/

inductive JVal where
  | vStr (s : String)
  | vObj (fields : List (String × JVal))
  | vNull

/-- First binding of a key in an object's field list (JavaScript property
lookup; objects carry each key at most once). -/
def lookupField (k : String) : List (String × JVal) → Option JVal
  | [] => none
  | (k2, v) :: rest => if k2 = k then some v else lookupField k rest

/-- Source `getNestedValue`: reduce over the dotted path, returning
undefined (`none`) as soon as the current value is null, undefined or has
no such property. -/
def getNestedValue : JVal → List String → Option JVal
  | v, [] => some v
  | .vObj fs, k :: ks =>
      match lookupField k fs with
      | some w => getNestedValue w ks
      | none => none
  | _, _ :: _ => none

/-- The string a resolved value contributes to matching: the callers skip
null/undefined values and apply `String(value)` to the rest. -/
def resolve (item : JVal) (path : List String) : Option (List Char) :=
  match getNestedValue item path with
  | some (.vStr s) => some s.toList
  | some (.vObj _) => some "[object Object]".toList
  | some .vNull => none
  | none => none

/-- Normalisation applied to values and query: `toLowerCase()` unless
`caseSensitive`. -/
def normChars (caseSensitive : Bool) (l : List Char) : List Char :=
  if caseSensitive then l else l.map Char.toLower

/-- Source `fuzzyMatch` loop: walk the text once, advancing the pattern
index on each character match; the result is the final pattern index
(`score` and `patternIndex` always advance together). -/
def fuzzyCount : List Char → List Char → Nat
  | _, [] => 0
  | [], _ :: _ => 0
  | c :: ts, p :: ps => if c = p then fuzzyCount ts ps + 1 else fuzzyCount ts (p :: ps)

/-- Source `fuzzyMatch`: 0 for a falsy text or pattern, else
`score / pattern.length` when the whole pattern was consumed, else 0. -/
def fuzzyMatch (text pattern : List Char) : ℚ :=
  if text = [] ∨ pattern = [] then 0
  else if fuzzyCount text pattern = pattern.length then
    (fuzzyCount text pattern : ℚ) / (pattern.length : ℚ)
  else 0

lemma fuzzyCount_le (ts ps : List Char) : fuzzyCount ts ps ≤ ps.length := by
  induction ts generalizing ps with
  | nil => cases ps <;> simp [fuzzyCount]
  | cons c ts ih =>
      cases ps with
      | nil => simp [fuzzyCount]
      | cons p ps =>
          by_cases h : c = p
          · simpa [fuzzyCount, h] using ih ps
          · exact le_trans (by simpa [fuzzyCount, h] using ih (p :: ps)) (by simp)

lemma fuzzyCount_eq_length_iff (ts ps : List Char) :
    fuzzyCount ts ps = ps.length ↔ ps.Sublist ts := by
  induction ts generalizing ps with
  | nil =>
      cases ps with
      | nil => simp [fuzzyCount]
      | cons p ps => simp [fuzzyCount]
  | cons c ts ih =>
      cases ps with
      | nil => simp [fuzzyCount, List.nil_sublist]
      | cons p ps =>
          by_cases h : c = p
          · subst h
            constructor
            · intro hcount
              have : fuzzyCount ts ps = ps.length := by
                simpa [fuzzyCount] using hcount
              exact List.Sublist.cons₂ c ((ih ps).mp this)
            · intro hsub
              have hps : ps.Sublist ts := by
                cases hsub with
                | cons₂ _ h2 => exact h2
                | cons _ h2 => exact ((List.Sublist.refl ps).cons c).trans h2
              simp [fuzzyCount, (ih ps).mpr hps]
          · constructor
            · intro hcount
              have : fuzzyCount ts (p :: ps) = (p :: ps).length := by
                simpa [fuzzyCount, h] using hcount
              exact ((ih (p :: ps)).mp this).cons c
            · intro hsub
              have hps : (p :: ps).Sublist ts := by
                cases hsub with
                | cons₂ _ h2 => exact absurd rfl h
                | cons _ h2 => exact h2
              simpa [fuzzyCount, h] using (ih (p :: ps)).mpr hps

/-- Source `indexOf`: position of the first occurrence of `q` in the text,
scanning left to right. -/
def indexOfSub (q : List Char) : List Char → Option Nat
  | [] => if q.isPrefixOf ([] : List Char) then some 0 else none
  | c :: ts =>
      if q.isPrefixOf (c :: ts) then some 0
      else (indexOfSub q ts).map (· + 1)

/-- Source `includes`: `indexOf` finds an occurrence. -/
def containsSub (t q : List Char) : Bool :=
  (indexOfSub q t).isSome

/-- The `advancedSearch` strategies covered by the model; the regex branch
delegates to the host regex engine and is exercised by no claim. -/
inductive Strategy where
  | contains
  | startsWith
  | endsWith
  | fuzzy
  deriving DecidableEq, Repr

/-- Source `advancedSearch`: empty query returns the data; otherwise keep
the records for which some key resolves to a non-null value whose
normalised string satisfies the strategy against the normalised query
(`fuzzy` thresholds `fuzzyMatch` at `minScore`, default 0.3). -/
def advancedSearch (data : List JVal) (query : String)
    (keys : List (String × List String)) (strategy : Strategy)
    (caseSensitive : Bool) (minScore : ℚ) : List JVal :=
  if query = "" then data
  else
    let nq := normChars caseSensitive query.toList
    data.filter fun item =>
      keys.any fun kv =>
        match resolve item kv.2 with
        | none => false
        | some sv =>
            let nv := normChars caseSensitive sv
            match strategy with
            | .contains => containsSub nv nq
            | .startsWith => nq.isPrefixOf nv
            | .endsWith => nq.isSuffixOf nv
            | .fuzzy => decide (minScore ≤ fuzzyMatch nv nq)

lemma fuzzyMatch_of_sublist {t q : List Char} (hq : q ≠ []) (h : q.Sublist t) :
    fuzzyMatch t q = 1 := by
  have ht : t ≠ [] := by
    intro hnil
    subst hnil
    exact hq (List.sublist_nil.mp h)
  have hcount : fuzzyCount t q = q.length := (fuzzyCount_eq_length_iff t q).mpr h
  have hlen : (q.length : ℚ) ≠ 0 := by
    simpa [List.length_eq_zero] using hq
  simp [fuzzyMatch, ht, hq, hcount, div_self hlen]

lemma fuzzyMatch_of_not_sublist {t q : List Char} (h : ¬ q.Sublist t) :
    fuzzyMatch t q = 0 := by
  by_cases ht : t = []
  · simp [fuzzyMatch, ht]
  · by_cases hq : q = []
    · exact absurd (hq ▸ List.nil_sublist t) h
    · have hcount : fuzzyCount t q ≠ q.length := fun hc =>
        h ((fuzzyCount_eq_length_iff t q).mp hc)
      simp [fuzzyMatch, ht, hq, hcount]

lemma any_congr {α : Type} (l : List α) (p q : α → Bool)
    (h : ∀ a ∈ l, p a = q a) : l.any p = l.any q := by
  induction l with
  | nil => rfl
  | cons a l ih =>
      simp only [List.any_cons, h a (by simp), ih fun b hb => h b (by simp [hb])]

lemma normChars_ne_nil {cs : Bool} {l : List Char} (h : l ≠ []) :
    normChars cs l ≠ [] := by
  cases cs <;> simpa [normChars]

lemma toList_ne_nil {s : String} (h : s ≠ "") : s.toList ≠ [] := by
  intro hnil
  apply h
  obtain ⟨data⟩ := s
  cases data with
  | nil => rfl
  | cons c cs => simp [String.toList] at hnil

/-- C9: for a non-empty query, the fuzzy match score is 0 exactly when the
query is not an in-order subsequence of the target, and lies in `(0, 1]`
when it is; consequently strategy `fuzzy` with the default `minScore` of
0.3 keeps exactly the records where some key's normalised value contains
the normalised query as an in-order subsequence. -/
theorem c9_fuzzy_subsequence (t q : List Char) (data : List JVal)
    (keys : List (String × List String)) (query : String) (cs : Bool)
    (hq : q ≠ []) (hquery : query ≠ "") :
    (fuzzyMatch t q = 0 ↔ ¬ q.Sublist t) ∧
    (q.Sublist t → 0 < fuzzyMatch t q ∧ fuzzyMatch t q ≤ 1) ∧
    (advancedSearch data query keys .fuzzy cs (3 / 10) =
      data.filter fun item =>
        keys.any fun kv =>
          match resolve item kv.2 with
          | none => false
          | some sv => decide ((normChars cs query.toList).Sublist (normChars cs sv))) := by
  refine ⟨⟨?_, fuzzyMatch_of_not_sublist⟩, ?_, ?_⟩
  · intro h0 hsub
    rw [fuzzyMatch_of_sublist hq hsub] at h0
    exact one_ne_zero h0
  · intro hsub
    rw [fuzzyMatch_of_sublist hq hsub]
    norm_num
  · have hnq : normChars cs query.toList ≠ [] :=
      normChars_ne_nil (toList_ne_nil hquery)
    rw [advancedSearch, if_neg hquery]
    apply List.filter_congr
    intro item _
    apply any_congr
    intro kv _
    cases hres : resolve item kv.2 with
    | none => rfl
    | some sv =>
        simp only
        apply decide_eq_decide.mpr
        constructor
        · intro hle
          by_contra hnsub
          rw [fuzzyMatch_of_not_sublist hnsub] at hle
          norm_num at hle
        · intro hsub
          rw [fuzzyMatch_of_sublist hnq hsub]
          norm_num

/-- Witness for C9 at concrete inputs: `"ab"` is an in-order subsequence
of `"xaxbx"`, so the fuzzy score is non-zero there. -/
theorem c9_fuzzy_subsequence_witness :
    0 < fuzzyMatch "xaxbx".toList "ab".toList ∧ fuzzyMatch "xaxbx".toList "ab".toList ≤ 1 :=
  (c9_fuzzy_subsequence "xaxbx".toList "ab".toList [] [] "a" false (by decide)
    (by decide)).2.1 (by decide)

/-- Source `calculateMatchScore`: `(positionScore + lengthScore) / 2` with
`positionScore = 1 - index / text.length` and
`lengthScore = query.length / text.length`; 0 when `indexOf` misses. -/
def calculateMatchScore (text query : List Char) : ℚ :=
  match indexOfSub query text with
  | none => 0
  | some index =>
      ((1 - (index : ℚ) / (text.length : ℚ)) + (query.length : ℚ) / (text.length : ℚ)) / 2

/-- Source weight lookup `weights[searchKey] || defaultWeight`: a missing
key — or a falsy (zero) weight — yields the default weight 1. -/
def weightOf : List (String × ℚ) → String → ℚ
  | [], _ => 1
  | (k, w) :: rest, searchKey =>
      if k = searchKey then (if w = 0 then 1 else w) else weightOf rest searchKey

/-- One step of the source's per-record loop over the key map: a resolved,
non-null value whose normalised string contains the normalised query adds
its weighted match score to the running total and bumps the match count. -/
def accumStep (cs : Bool) (nq : List Char) (weights : List (String × ℚ)) (item : JVal)
    (acc : ℚ × Nat) (kv : String × List String) : ℚ × Nat :=
  match resolve item kv.2 with
  | none => acc
  | some sv =>
      let nv := normChars cs sv
      if containsSub nv nq then
        (acc.1 + calculateMatchScore nv nq * weightOf weights kv.1, acc.2 + 1)
      else acc

/-- Source `rankedSearch` accumulation: `(totalScore, matchCount)`. -/
def scoreAccum (cs : Bool) (nq : List Char) (weights : List (String × ℚ))
    (keys : List (String × List String)) (item : JVal) : ℚ × Nat :=
  keys.foldl (accumStep cs nq weights item) (0, 0)

/-- A record's overall score: `totalScore / matchCount` when any key
matched, else 0. -/
def overallScore (cs : Bool) (nq : List Char) (weights : List (String × ℚ))
    (keys : List (String × List String)) (item : JVal) : ℚ :=
  let acc := scoreAccum cs nq weights keys item
  if 0 < acc.2 then acc.1 / (acc.2 : ℚ) else 0

/-- Stable insertion into a non-increasing list: an element coming from
earlier in the original order goes before the first strictly smaller score,
hence after no tie.  The fold below is therefore the unique stable
non-increasing sort, which is what `Array.prototype.sort` (stable by the
language specification) produces with the comparator
`(a, b) => b.score - a.score`. -/
def insertDesc {α : Type} (p : α × ℚ) : List (α × ℚ) → List (α × ℚ)
  | [] => [p]
  | r :: rs => if r.2 ≤ p.2 then p :: r :: rs else r :: insertDesc p rs

def sortDesc {α : Type} (l : List (α × ℚ)) : List (α × ℚ) :=
  l.foldr insertDesc []

/-- Source `rankedSearch`: score every record, keep those with positive
score, sort by descending score (stably), return the records. -/
def rankedSearch (data : List JVal) (query : String)
    (keys : List (String × List String)) (weights : List (String × ℚ))
    (caseSensitive : Bool) : List JVal :=
  if query = "" then data
  else
    let nq := normChars caseSensitive query.toList
    let results :=
      (data.map fun item =>
        (item, overallScore caseSensitive nq weights keys item)).filter
          fun r => decide (0 < r.2)
    (sortDesc results).map Prod.fst

/-- The weighted score a key contributes for a record, `none` when the key
does not resolve or does not match. -/
def keyContrib (cs : Bool) (nq : List Char) (weights : List (String × ℚ)) (item : JVal)
    (kv : String × List String) : Option ℚ :=
  match resolve item kv.2 with
  | none => none
  | some sv =>
      let nv := normChars cs sv
      if containsSub nv nq then some (calculateMatchScore nv nq * weightOf weights kv.1)
      else none

/-- The claim's membership condition, in code form: some key's normalised
resolved value contains the normalised query. -/
def matchesQuery (cs : Bool) (nq : List Char) (keys : List (String × List String))
    (item : JVal) : Bool :=
  keys.any fun kv =>
    match resolve item kv.2 with
    | none => false
    | some sv => containsSub (normChars cs sv) nq

lemma indexOfSub_bound {q t : List Char} {i : Nat} (h : indexOfSub q t = some i) :
    i + q.length ≤ t.length := by
  induction t generalizing i with
  | nil =>
      rw [indexOfSub] at h
      by_cases hp : q.isPrefixOf ([] : List Char)
      · rw [if_pos hp] at h
        have hq : q = [] := by
          have := List.isPrefixOf_iff_prefix.mp hp
          simpa using this.length_le
        cases h
        simp [hq]
      · rw [if_neg hp] at h
        cases h
  | cons c ts ih =>
      rw [indexOfSub] at h
      by_cases hp : q.isPrefixOf (c :: ts)
      · rw [if_pos hp] at h
        cases h
        simpa using (List.isPrefixOf_iff_prefix.mp hp).length_le
      · rw [if_neg hp] at h
        cases hj : indexOfSub q ts with
        | none => rw [hj] at h; cases h
        | some j =>
            rw [hj] at h
            have h2 : j + 1 = i := by simpa using h
            have := ih hj
            simp only [List.length_cons]
            omega

lemma containsSub_infix_iff (t q : List Char) : containsSub t q = true ↔ q <:+: t := by
  induction t with
  | nil =>
      rw [containsSub, indexOfSub]
      by_cases hp : q.isPrefixOf ([] : List Char)
      · have hq : q = [] := by
          have := List.isPrefixOf_iff_prefix.mp hp
          simpa using this.length_le
        simp [hp, hq]
      · have hq : q ≠ [] := fun hnil => hp (by simp [hnil, List.isPrefixOf_iff_prefix])
        simp [hp, List.infix_nil, hq]
  | cons c ts ih =>
      rw [containsSub, indexOfSub]
      by_cases hp : q.isPrefixOf (c :: ts)
      · simp only [if_pos hp, Option.isSome_some, true_iff]
        exact (List.isPrefixOf_iff_prefix.mp hp).isInfix
      · simp only [if_neg hp]
        have hmap : ((indexOfSub q ts).map (· + 1)).isSome = (indexOfSub q ts).isSome := by
          cases indexOfSub q ts <;> rfl
        rw [hmap]
        have hts := ih
        rw [containsSub] at hts
        rw [hts, List.infix_cons_iff]
        have hnp : ¬ q <+: c :: ts := fun hpre =>
          hp (List.isPrefixOf_iff_prefix.mpr hpre)
        tauto

lemma calculateMatchScore_pos {t q : List Char} (hq : q ≠ [])
    (h : containsSub t q = true) : 0 < calculateMatchScore t q := by
  rw [containsSub] at h
  cases hi : indexOfSub q t with
  | none => rw [hi] at h; cases h
  | some i =>
      have hbound := indexOfSub_bound hi
      have hQ : 0 < q.length := List.length_pos.mpr hq
      have hL : 0 < (t.length : ℚ) := by
        have : 0 < t.length := by omega
        exact_mod_cast this
      have hiL : (i : ℚ) ≤ (t.length : ℚ) := by
        have : i ≤ t.length := by omega
        exact_mod_cast this
      have h1 : (i : ℚ) / (t.length : ℚ) ≤ 1 := (div_le_one hL).mpr hiL
      have h2 : 0 < (q.length : ℚ) / (t.length : ℚ) :=
        div_pos (by exact_mod_cast hQ) hL
      rw [calculateMatchScore, hi]
      linarith

lemma weightOf_pos (weights : List (String × ℚ)) (k : String)
    (hw : ∀ kv ∈ weights, 0 ≤ kv.2) : 0 < weightOf weights k := by
  induction weights with
  | nil => norm_num [weightOf]
  | cons kv rest ih =>
      obtain ⟨k2, w⟩ := kv
      rw [weightOf]
      by_cases hk : k2 = k
      · rw [if_pos hk]
        by_cases hw0 : w = 0
        · norm_num [hw0]
        · rw [if_neg hw0]
          have : (0 : ℚ) ≤ w := hw (k2, w) (by simp)
          exact lt_of_le_of_ne this (Ne.symm hw0)
      · rw [if_neg hk]
        exact ih fun kv2 h2 => hw kv2 (by simp [h2])

lemma accumStep_eq (cs : Bool) (nq : List Char) (weights : List (String × ℚ)) (item : JVal)
    (acc : ℚ × Nat) (kv : String × List String) :
    accumStep cs nq weights item acc kv =
      match keyContrib cs nq weights item kv with
      | some c => (acc.1 + c, acc.2 + 1)
      | none => acc := by
  rw [accumStep, keyContrib]
  cases resolve item kv.2 with
  | none => rfl
  | some sv => by_cases h : containsSub (normChars cs sv) nq <;> simp [h]

lemma scoreAccum_go (cs : Bool) (nq : List Char) (weights : List (String × ℚ)) (item : JVal)
    (keys : List (String × List String)) (a : ℚ) (n : Nat) :
    keys.foldl (accumStep cs nq weights item) (a, n) =
      (a + (keys.filterMap (keyContrib cs nq weights item)).sum,
       n + (keys.filterMap (keyContrib cs nq weights item)).length) := by
  induction keys generalizing a n with
  | nil => simp
  | cons kv keys ih =>
      rw [List.foldl_cons, accumStep_eq]
      cases hc : keyContrib cs nq weights item kv with
      | none => simpa [List.filterMap_cons, hc] using ih a n
      | some c =>
          rw [ih]
          simp only [List.filterMap_cons, hc, List.sum_cons, List.length_cons, Prod.mk.injEq]
          constructor
          · ring
          · omega

lemma overallScore_eq (cs : Bool) (nq : List Char) (weights : List (String × ℚ))
    (keys : List (String × List String)) (item : JVal) :
    overallScore cs nq weights keys item =
      (if keys.filterMap (keyContrib cs nq weights item) = [] then 0
       else (keys.filterMap (keyContrib cs nq weights item)).sum /
            ((keys.filterMap (keyContrib cs nq weights item)).length : ℚ)) := by
  rw [overallScore, scoreAccum, scoreAccum_go]
  by_cases h : keys.filterMap (keyContrib cs nq weights item) = []
  · simp [h]
  · have hlen : 0 < (keys.filterMap (keyContrib cs nq weights item)).length :=
      List.length_pos.mpr h
    simp [h, hlen]

lemma keyContrib_ne_none_iff (cs : Bool) (nq : List Char) (weights : List (String × ℚ))
    (item : JVal) (kv : String × List String) :
    keyContrib cs nq weights item kv ≠ none ↔
      (match resolve item kv.2 with
       | none => false
       | some sv => containsSub (normChars cs sv) nq) = true := by
  rw [keyContrib]
  cases resolve item kv.2 with
  | none => simp
  | some sv => by_cases h : containsSub (normChars cs sv) nq <;> simp [h]

lemma matchesQuery_iff_contribs (cs : Bool) (nq : List Char) (weights : List (String × ℚ))
    (keys : List (String × List String)) (item : JVal) :
    matchesQuery cs nq keys item = true ↔
      keys.filterMap (keyContrib cs nq weights item) ≠ [] := by
  rw [matchesQuery, List.any_eq_true, Ne, List.filterMap_eq_nil_iff]
  push_neg
  constructor
  · rintro ⟨kv, hkv, hp⟩
    exact ⟨kv, hkv, (keyContrib_ne_none_iff cs nq weights item kv).mpr hp⟩
  · rintro ⟨kv, hkv, hne⟩
    exact ⟨kv, hkv, (keyContrib_ne_none_iff cs nq weights item kv).mp hne⟩

lemma keyContrib_pos {cs : Bool} {nq : List Char} {weights : List (String × ℚ)}
    {item : JVal} {kv : String × List String} {c : ℚ} (hq : nq ≠ [])
    (hw : ∀ kv2 ∈ weights, 0 ≤ kv2.2) (h : keyContrib cs nq weights item kv = some c) :
    0 < c := by
  rw [keyContrib] at h
  cases hres : resolve item kv.2 with
  | none => rw [hres] at h; cases h
  | some sv =>
      have hk : keyContrib cs nq weights item kv =
          if containsSub (normChars cs sv) nq = true
          then some (calculateMatchScore (normChars cs sv) nq * weightOf weights kv.1)
          else none := by
        rw [keyContrib, hres]
      rw [keyContrib] at hk
      rw [hk] at h
      by_cases hc : containsSub (normChars cs sv) nq
      · rw [if_pos hc] at h
        rw [← Option.some.inj h]
        exact mul_pos (calculateMatchScore_pos hq hc) (weightOf_pos weights kv.1 hw)
      · simp [hc] at h

lemma overallScore_pos_iff {cs : Bool} {nq : List Char} {weights : List (String × ℚ)}
    {keys : List (String × List String)} {item : JVal} (hq : nq ≠ [])
    (hw : ∀ kv ∈ weights, 0 ≤ kv.2) :
    (0 < overallScore cs nq weights keys item) ↔ matchesQuery cs nq keys item = true := by
  rw [overallScore_eq, matchesQuery_iff_contribs cs nq weights keys item]
  by_cases h : keys.filterMap (keyContrib cs nq weights item) = []
  · simp [h]
  · have hsum : 0 < (keys.filterMap (keyContrib cs nq weights item)).sum :=
      List.sum_pos _ (fun c hc => keyContrib_pos hq hw (List.mem_filterMap.mp hc).choose_spec.2) h
    have hlen : (0 : ℚ) < ((keys.filterMap (keyContrib cs nq weights item)).length : ℚ) := by
      exact_mod_cast List.length_pos.mpr h
    simp [h, div_pos hsum hlen]

lemma matchesQuery_iff_spec (cs : Bool) (nq : List Char)
    (keys : List (String × List String)) (item : JVal) :
    matchesQuery cs nq keys item = true ↔
      ∃ kv ∈ keys, ∃ sv, resolve item kv.2 = some sv ∧ nq <:+: normChars cs sv := by
  rw [matchesQuery, List.any_eq_true]
  constructor
  · rintro ⟨kv, hkv, hp⟩
    cases hres : resolve item kv.2 with
    | none => simp [hres] at hp
    | some sv =>
        simp only [hres] at hp
        exact ⟨kv, hkv, sv, hres, (containsSub_infix_iff _ _).mp hp⟩
  · rintro ⟨kv, hkv, sv, hres, hin⟩
    exact ⟨kv, hkv, by simp [hres, (containsSub_infix_iff _ _).mpr hin]⟩

lemma insertDesc_perm {α : Type} (p : α × ℚ) (l : List (α × ℚ)) :
    (insertDesc p l).Perm (p :: l) := by
  induction l with
  | nil => exact List.Perm.refl _
  | cons r rs ih =>
      rw [insertDesc]
      by_cases h : r.2 ≤ p.2
      · rw [if_pos h]
      · rw [if_neg h]
        exact (ih.cons r).trans (List.Perm.swap p r rs)

lemma sortDesc_perm {α : Type} (l : List (α × ℚ)) : (sortDesc l).Perm l := by
  induction l with
  | nil => exact List.Perm.refl _
  | cons p ps ih => exact (insertDesc_perm p (sortDesc ps)).trans (ih.cons p)

lemma insertDesc_sorted {α : Type} (p : α × ℚ) (l : List (α × ℚ))
    (h : l.Pairwise fun a b => b.2 ≤ a.2) :
    (insertDesc p l).Pairwise fun a b => b.2 ≤ a.2 := by
  induction l with
  | nil => simp [insertDesc]
  | cons r rs ih =>
      rw [List.pairwise_cons] at h
      obtain ⟨hr, hrs⟩ := h
      rw [insertDesc]
      by_cases hle : r.2 ≤ p.2
      · rw [if_pos hle]
        refine List.Pairwise.cons ?_ (List.Pairwise.cons hr hrs)
        intro b hb
        rcases List.mem_cons.mp hb with rfl | hbrs
        · exact hle
        · exact (hr b hbrs).trans hle
      · rw [if_neg hle]
        refine List.Pairwise.cons ?_ (ih hrs)
        intro b hb
        rcases List.mem_cons.mp ((insertDesc_perm p rs).mem_iff.mp hb) with rfl | hbrs
        · exact le_of_lt (lt_of_not_le hle)
        · exact hr b hbrs

lemma sortDesc_sorted {α : Type} (l : List (α × ℚ)) :
    (sortDesc l).Pairwise fun a b => b.2 ≤ a.2 := by
  induction l with
  | nil => simp [sortDesc]
  | cons p ps ih => exact insertDesc_sorted p (sortDesc ps) ih

/-- C3 (amended): for a non-empty query and non-negative listed weights (a
zero weight is falsy and falls back to the default 1, as does a missing
one), `rankedSearch` returns exactly the stable non-increasing sort, by
overall score, of the records having at least one key whose normalised
resolved value contains the normalised query; the overall score is the
average over the matching keys of
`(1 - firstMatchIndex/valueLength + queryLength/valueLength) / 2` times the
key's effective weight. -/
theorem c3_rankedSearch_ranking (data : List JVal) (query : String)
    (keys : List (String × List String)) (weights : List (String × ℚ)) (cs : Bool)
    (hquery : query ≠ "") (hw : ∀ kv ∈ weights, 0 ≤ kv.2) :
    rankedSearch data query keys weights cs =
      (sortDesc ((data.filter
          (matchesQuery cs (normChars cs query.toList) keys)).map fun item =>
        (item, overallScore cs (normChars cs query.toList) weights keys item))).map
        Prod.fst ∧
    (∀ item, item ∈ rankedSearch data query keys weights cs ↔
      item ∈ data ∧ ∃ kv ∈ keys, ∃ sv, resolve item kv.2 = some sv ∧
        normChars cs query.toList <:+: normChars cs sv) ∧
    (rankedSearch data query keys weights cs).Pairwise
      (fun a b => overallScore cs (normChars cs query.toList) weights keys b ≤
                  overallScore cs (normChars cs query.toList) weights keys a) ∧
    (∀ item, overallScore cs (normChars cs query.toList) weights keys item =
      if keys.filterMap (keyContrib cs (normChars cs query.toList) weights item) = [] then 0
      else (keys.filterMap (keyContrib cs (normChars cs query.toList) weights item)).sum /
        ((keys.filterMap (keyContrib cs (normChars cs query.toList) weights item)).length : ℚ)) := by
  have hnq : normChars cs query.toList ≠ [] := normChars_ne_nil (toList_ne_nil hquery)
  have hmain : rankedSearch data query keys weights cs =
      (sortDesc ((data.filter
          (matchesQuery cs (normChars cs query.toList) keys)).map fun item =>
        (item, overallScore cs (normChars cs query.toList) weights keys item))).map
        Prod.fst := by
    rw [rankedSearch, if_neg hquery]
    dsimp only
    have hfm : ((data.map fun item =>
        (item, overallScore cs (normChars cs query.toList) weights keys item)).filter
          fun r => decide (0 < r.2)) =
        ((data.filter ((fun r => decide (0 < r.2)) ∘ fun item =>
          (item, overallScore cs (normChars cs query.toList) weights keys item))).map
            fun item => (item, overallScore cs (normChars cs query.toList) weights keys item)) :=
      List.filter_map _ data
    have hfc : (data.filter ((fun r => decide (0 < r.2)) ∘ fun item =>
        (item, overallScore cs (normChars cs query.toList) weights keys item))) =
        data.filter (matchesQuery cs (normChars cs query.toList) keys) := by
      apply List.filter_congr
      intro item _
      simp only [Function.comp_apply]
      cases hm : matchesQuery cs (normChars cs query.toList) keys item with
      | true => exact decide_eq_true ((overallScore_pos_iff hnq hw).mpr hm)
      | false =>
          refine decide_eq_false fun hpos => ?_
          rw [(overallScore_pos_iff hnq hw).mp hpos] at hm
          cases hm
    rw [hfm, hfc]
  refine ⟨hmain, ?_, ?_, fun item => overallScore_eq cs _ weights keys item⟩
  · intro item
    rw [hmain]
    constructor
    · intro hmem
      obtain ⟨r, hr, hfst⟩ := List.mem_map.mp hmem
      have hrR := (sortDesc_perm _).mem_iff.mp hr
      obtain ⟨item2, hitem2, rfl⟩ := List.mem_map.mp hrR
      obtain ⟨hdata, hmatch⟩ := List.mem_filter.mp hitem2
      cases hfst
      exact ⟨hdata,
        (matchesQuery_iff_spec cs (normChars cs query.toList) keys item2).mp hmatch⟩
    · rintro ⟨hdata, hspec⟩
      have hmatch := (matchesQuery_iff_spec cs (normChars cs query.toList) keys item).mpr hspec
      refine List.mem_map.mpr ⟨(item,
        overallScore cs (normChars cs query.toList) weights keys item), ?_, rfl⟩
      refine (sortDesc_perm _).mem_iff.mpr ?_
      exact List.mem_map.mpr ⟨item, List.mem_filter.mpr ⟨hdata, hmatch⟩, rfl⟩
  · rw [hmain, List.pairwise_map]
    have hinv : ∀ r ∈ sortDesc ((data.filter
        (matchesQuery cs (normChars cs query.toList) keys)).map fun item =>
          (item, overallScore cs (normChars cs query.toList) weights keys item)),
        r.2 = overallScore cs (normChars cs query.toList) weights keys r.1 := by
      intro r hr
      obtain ⟨item2, _, rfl⟩ := List.mem_map.mp ((sortDesc_perm _).mem_iff.mp hr)
      rfl
    refine (sortDesc_sorted _).imp_of_mem fun ha hb hr => ?_
    rw [← hinv _ ha, ← hinv _ hb]
    exact hr

/-- Witness for C3: the characterisation applied to a concrete search with
empty data, key map and weight map. -/
theorem c3_rankedSearch_ranking_witness :
    rankedSearch [] "a" [] [] false =
      (sortDesc ((List.filter (matchesQuery false (normChars false "a".toList) [])
        []).map fun item =>
          (item, overallScore false (normChars false "a".toList) [] [] item))).map
        Prod.fst :=
  (c3_rankedSearch_ranking [] "a" [] [] false (by decide) (by simp)).1

/-- Counterexample to C3 as stated: with the (truthy) weight `-1` on key
`title`, the record whose title is exactly the query matches that key but
receives a negative overall score and is dropped by the `score > 0` filter,
so `rankedSearch` does not return all records with a matching key. -/
theorem c3_counterexample :
    rankedSearch [JVal.vObj [("title", JVal.vStr "a")]] "a" [("title", ["title"])]
      [("title", -1)] true = [] ∧
    resolve (JVal.vObj [("title", JVal.vStr "a")]) ["title"] = some "a".toList ∧
    normChars true "a".toList <:+: normChars true "a".toList := by
  refine ⟨?_, rfl, List.infix_refl _⟩
  have hq : ("a" : String) ≠ "" := by decide
  have hres : resolve (JVal.vObj [("title", JVal.vStr "a")]) ["title"]
      = some (['a'] : List Char) := rfl
  have hidx : indexOfSub (['a'] : List Char) ['a'] = some 0 := rfl
  have hlen : ((['a'] : List Char).length : ℚ) = 1 := by norm_num
  have hscore : calculateMatchScore (['a'] : List Char) ['a'] = 1 := by
    rw [calculateMatchScore, hidx]
    norm_num
  have hwt : weightOf [("title", -1)] "title" = -1 := by
    rw [weightOf, if_pos rfl, if_neg (by norm_num)]
  have hkc : keyContrib true ['a'] [("title", -1)] (JVal.vObj [("title", JVal.vStr "a")])
      ("title", ["title"])
      = some (calculateMatchScore (['a'] : List Char) ['a'] * weightOf [("title", -1)] "title") := by
    rw [keyContrib, hres]
    rfl
  have hoverall : overallScore true ['a'] [("title", -1)] [("title", ["title"])]
      (JVal.vObj [("title", JVal.vStr "a")]) = -1 := by
    rw [overallScore_eq]
    simp only [List.filterMap_cons, hkc, List.filterMap_nil]
    rw [hscore, hwt] at *
    norm_num
  have hnorm : normChars true "a".toList = (['a'] : List Char) := rfl
  rw [rankedSearch, if_neg hq]
  dsimp only
  rw [hnorm, List.map_cons, List.map_nil, hoverall]
  have hdec : (decide ((0 : ℚ) < -1)) = false := decide_eq_false (by norm_num)
  simp only [List.filter_cons, hdec, List.filter_nil, if_false]
  rfl

end Search

namespace Highlight

/- Embedding of `searchWithHighlight` and `setNestedValue`
(src/utils/price-formatter.js) over an explicit object store, so that
JavaScript aliasing and in-place mutation are observable.  An object is a
field list; a value is a string, a reference to another object in the
store, or null; a record is a reference.  `{ ...item }` allocates a shallow
copy: the same field list, sharing the references it holds. -/

inductive SVal where
  | s (str : String)
  | ref (addr : Nat)
  | null
  deriving DecidableEq, Repr

abbrev Obj := List (String × SVal)

structure Store where
  objs : List Obj
  deriving DecidableEq, Repr

def getField (k : String) : Obj → Option SVal
  | [] => none
  | (k2, v) :: rest => if k2 = k then some v else getField k rest

/-- JavaScript property assignment: replace the binding when the key
exists, append it (insertion order) when it does not. -/
def setField (k : String) (v : SVal) : Obj → Obj
  | [] => [(k, v)]
  | (k2, w) :: rest => if k2 = k then (k2, v) :: rest else (k2, w) :: setField k v rest

def updateObj (σ : Store) (a : Nat) (f : Obj → Obj) : Store :=
  ⟨σ.objs.set a (f (σ.objs.getD a []))⟩

/-- Source `getNestedValue` over the store: undefined as soon as the
current value is null/undefined or not an object holding the key. -/
def getNestedS (σ : Store) : SVal → List String → Option SVal
  | v, [] => some v
  | .ref a, k :: ks =>
      match getField k (σ.objs.getD a []) with
      | some w => getNestedS σ w ks
      | none => none
  | _, _ :: _ => none

/-- Value stringification for matching, as in the search utilities: skip
null/undefined, `String(value)` otherwise. -/
def resolveS (σ : Store) (a : Nat) (path : List String) : Option (List Char) :=
  match getNestedS σ (.ref a) path with
  | some (.s str) => some str.toList
  | some (.ref _) => some "[object Object]".toList
  | some .null => none
  | none => none

/-- The per-record matcher of `searchData` (contains strategy). -/
def matchesBasic (σ : Store) (cs : Bool) (nq : List Char)
    (keys : List (String × List String)) (a : Nat) : Bool :=
  keys.any fun kv =>
    match resolveS σ a kv.2 with
    | none => false
    | some sv => Search.containsSub (Search.normChars cs sv) nq

/-- Source `searchData` as invoked by `searchWithHighlight`: all records
for a falsy query, else the contains filter over the key map. -/
def searchDataS (σ : Store) (recs : List Nat) (query : String)
    (keys : List (String × List String)) (cs : Bool) : List Nat :=
  if query = "" then recs
  else recs.filter (matchesBasic σ cs (Search.normChars cs query.toList) keys)

/-- Source `setNestedValue` walk over the leading path segments: descend
through an existing object reference, otherwise assign a fresh `{}` into
the current object and descend into it. -/
def setNestedGo (σ : Store) (cur : Nat) (ks : List String) (last : String) (v : SVal) :
    Store :=
  match ks with
  | [] => updateObj σ cur (setField last v)
  | k :: rest =>
      match getField k (σ.objs.getD cur []) with
      | some (.ref a) => setNestedGo σ a rest last v
      | _ =>
          let n := σ.objs.length
          let σ2 : Store := ⟨(updateObj σ cur (setField k (.ref n))).objs ++ [[]]⟩
          setNestedGo σ2 n rest last v

def splitLast (k : String) : List String → List String × String
  | [] => ([], k)
  | k2 :: ks =>
      let p := splitLast k2 ks
      (k :: p.1, p.2)

/-- Source `setNestedValue(obj, path, value)`: pop the last segment, walk
the rest, assign at the target. -/
def setNestedValueS (σ : Store) (a : Nat) (path : List String) (v : SVal) : Store :=
  match path with
  | [] => σ
  | k :: ks =>
      let p := splitLast k ks
      setNestedGo σ a p.1 p.2 v

def openTag (cls : List Char) : List Char :=
  "<span class=\"".toList ++ cls ++ "\">".toList

def closeTag : List Char :=
  "</span>".toList

/-- The global regex replace over the escaped literal query: wrap each
non-overlapping leftmost occurrence (case-insensitive unless
`caseSensitive`) of the query in the span tag, keeping the matched text's
original case (`$1`).  The fuel is the text length, consumed at least one
character per step. -/
def highlightGo (cls : List Char) (cs : Bool) (q : List Char) : Nat → List Char → List Char
  | _, [] => []
  | 0, t => t
  | fuel + 1, c :: rest =>
      if Search.normChars cs ((c :: rest).take q.length) = Search.normChars cs q then
        openTag cls ++ (c :: rest).take q.length ++ closeTag ++
          highlightGo cls cs q fuel ((c :: rest).drop q.length)
      else c :: highlightGo cls cs q fuel rest

/-- An empty query is returned untouched here; the source would build an
empty-pattern regex in that corner, which no claim exercises, and the
choice does not affect which objects are written. -/
def highlightChars (cls : List Char) (cs : Bool) (q t : List Char) : List Char :=
  if q = [] then t else highlightGo cls cs q t.length t

/-- One key of the per-result loop: read the value from the original
record (through the current store), and when it matches, write the
highlighted string through the dotted path of the shallow copy. -/
def highlightKeyStep (cs : Bool) (query : String) (cls : List Char)
    (origAddr copyAddr : Nat) (σ : Store) (kv : String × List String) : Store :=
  match resolveS σ origAddr kv.2 with
  | none => σ
  | some sv =>
      if Search.containsSub (Search.normChars cs sv) (Search.normChars cs query.toList) then
        setNestedValueS σ copyAddr kv.2
          (.s (String.mk (highlightChars cls cs query.toList sv)))
      else σ

/-- One result record: allocate the shallow copy `{ ...item }`, run the
key loop against it, and emit the copy's address. -/
def highlightRecordStep (cs : Bool) (query : String) (cls : List Char)
    (keys : List (String × List String)) (acc : Store × List Nat) (a : Nat) :
    Store × List Nat :=
  let σ := acc.1
  let copy := σ.objs.getD a []
  let n := σ.objs.length
  let σ1 : Store := ⟨σ.objs ++ [copy]⟩
  let σ2 := keys.foldl (highlightKeyStep cs query cls a n) σ1
  (σ2, acc.2 ++ [n])

/-- Source `searchWithHighlight`: `searchData` first, then the highlight
map over the results; returns the final store and the copies' addresses. -/
def searchWithHighlightS (σ : Store) (recs : List Nat) (query : String)
    (keys : List (String × List String)) (cls : List Char) (cs : Bool) :
    Store × List Nat :=
  (searchDataS σ recs query keys cs).foldl
    (highlightRecordStep cs query cls keys) (σ, [])

/-- The first `N` objects of the store are intact (and the store has not
shrunk below them). -/
def keep (N : Nat) (σ0 σ : Store) : Prop :=
  N ≤ σ.objs.length ∧ ∀ i < N, σ.objs[i]? = σ0.objs[i]?

lemma keep_refl (N : Nat) (σ : Store) (h : N ≤ σ.objs.length) : keep N σ σ :=
  ⟨h, fun _ _ => rfl⟩

lemma keep_trans {N : Nat} {σ0 σ1 σ2 : Store} (h1 : keep N σ0 σ1) (h2 : keep N σ1 σ2) :
    keep N σ0 σ2 :=
  ⟨h2.1, fun i hi => (h2.2 i hi).trans (h1.2 i hi)⟩

lemma keep_updateObj {N a : Nat} {σ : Store} (hN : N ≤ σ.objs.length) (ha : N ≤ a)
    (f : Obj → Obj) : keep N σ (updateObj σ a f) := by
  refine ⟨by simpa [updateObj] using hN, fun i hi => ?_⟩
  have hne : a ≠ i := by omega
  exact List.getElem?_set_ne hne

lemma keep_push {N : Nat} {σ : Store} (hN : N ≤ σ.objs.length) (o : Obj) :
    keep N σ ⟨σ.objs ++ [o]⟩ := by
  refine ⟨by simp; omega, fun i hi => ?_⟩
  exact List.getElem?_append_left (by omega)

lemma keep_setNested_single {N copy : Nat} {σ : Store} (hN : N ≤ σ.objs.length)
    (hcopy : N ≤ copy) (k : String) (v : SVal) :
    keep N σ (setNestedValueS σ copy [k] v) := by
  rw [setNestedValueS]
  exact keep_updateObj hN hcopy (setField k v)

lemma keep_highlightKeyStep {N : Nat} (orig copy : Nat) {σ : Store}
    (hN : N ≤ σ.objs.length) (hcopy : N ≤ copy) (cs : Bool) (query : String)
    (cls : List Char) (kv : String × List String) (hkv : ∃ k, kv.2 = [k]) :
    keep N σ (highlightKeyStep cs query cls orig copy σ kv) := by
  obtain ⟨k, hk⟩ := hkv
  rw [highlightKeyStep]
  split
  · exact keep_refl N σ hN
  · split
    · rw [hk]
      exact keep_setNested_single hN hcopy k _
    · exact keep_refl N σ hN

lemma keep_keyFold {N : Nat} (orig copy : Nat) (σ : Store)
    (keys : List (String × List String)) (hkeys : ∀ kv ∈ keys, ∃ k, kv.2 = [k])
    (hN : N ≤ σ.objs.length) (hcopy : N ≤ copy) (cs : Bool) (query : String)
    (cls : List Char) :
    keep N σ (keys.foldl (highlightKeyStep cs query cls orig copy) σ) := by
  induction keys generalizing σ with
  | nil => exact keep_refl N σ hN
  | cons kv keys ih =>
      rw [List.foldl_cons]
      have h1 := keep_highlightKeyStep orig copy hN hcopy cs query cls kv (hkeys kv (by simp))
      have h2 := ih (highlightKeyStep cs query cls orig copy σ kv)
        (fun kv2 h => hkeys kv2 (by simp [h])) h1.1
      exact keep_trans h1 h2

lemma keep_recordFold (N : Nat) (σ0 : Store) (results : List Nat)
    (keys : List (String × List String)) (hkeys : ∀ kv ∈ keys, ∃ k, kv.2 = [k])
    (cs : Bool) (query : String) (cls : List Char) :
    ∀ (acc : Store × List Nat), keep N σ0 acc.1 →
      keep N σ0 (results.foldl (highlightRecordStep cs query cls keys) acc).1 := by
  induction results with
  | nil => exact fun acc h => h
  | cons a results ih =>
      intro acc hacc
      rw [List.foldl_cons]
      apply ih
      rw [highlightRecordStep]
      have hpush : keep N acc.1 ⟨acc.1.objs ++ [acc.1.objs.getD a []]⟩ :=
        keep_push hacc.1 _
      have hfold := keep_keyFold a acc.1.objs.length
        ⟨acc.1.objs ++ [acc.1.objs.getD a []]⟩ keys hkeys
        (by simpa using le_trans hacc.1 (by simp)) hacc.1 cs query cls
      exact keep_trans hacc (keep_trans hpush hfold)

/-- C2 (amended): when every key path is a single (top-level) segment,
`searchWithHighlight` writes only to the freshly allocated shallow copies:
every pre-existing object of the store — the input records and everything
they reference — is unchanged, so the originals are not mutated.  With a
nested dotted path this fails: the shallow copy shares the nested object
with the original record, and the highlight is written into that shared
object in place (see the counterexample). -/
theorem c2_highlight_topLevel_pure (σ : Store) (recs : List Nat) (query : String)
    (keys : List (String × List String)) (cls : List Char) (cs : Bool)
    (hkeys : ∀ kv ∈ keys, ∃ k, kv.2 = [k]) :
    ∀ i < σ.objs.length,
      (searchWithHighlightS σ recs query keys cls cs).1.objs[i]? = σ.objs[i]? := by
  intro i hi
  have h := keep_recordFold σ.objs.length σ
    (searchDataS σ recs query keys cs) keys hkeys cs query cls (σ, [])
    (keep_refl _ _ (le_refl _))
  exact h.2 i hi

/-- Witness for C2 at a concrete store: highlighting `"sho"` over the
top-level key `title` of the record `{title: "shoes"}` leaves the original
object unchanged. -/
theorem c2_highlight_topLevel_pure_witness :
    (searchWithHighlightS ⟨[[("title", SVal.s "shoes")]]⟩ [0] "sho"
      [("title", ["title"])] "search-highlight".toList false).1.objs[0]?
      = (⟨[[("title", SVal.s "shoes")]]⟩ : Store).objs[0]? :=
  c2_highlight_topLevel_pure ⟨[[("title", SVal.s "shoes")]]⟩ [0] "sho"
    [("title", ["title"])] "search-highlight".toList false
    (fun kv hkv => by rw [List.mem_singleton.mp hkv]; exact ⟨"title", rfl⟩)
    0 (by decide)

/-- Counterexample to C2 as stated: with the nested key path
`"category.name"` on the record `{category: {name: "shoes"}}`, running
`searchWithHighlight` with query `"sho"` changes the original record's
nested value in place — `record.category.name` reads back with the span
markup afterwards, because the shallow copy shares the `category` object
with the original. -/
theorem c2_counterexample :
    getNestedS ⟨[[("category", SVal.ref 1)], [("name", SVal.s "shoes")]]⟩ (.ref 0)
      ["category", "name"] = some (.s "shoes") ∧
    getNestedS (searchWithHighlightS ⟨[[("category", SVal.ref 1)], [("name", SVal.s "shoes")]]⟩
        [0] "sho" [("category", ["category", "name"])] "search-highlight".toList false).1
      (.ref 0) ["category", "name"]
      = some (.s "<span class=\"search-highlight\">sho</span>es") ∧
    ("<span class=\"search-highlight\">sho</span>es" : String) ≠ "shoes" := by
  refine ⟨rfl, by decide, by decide⟩

end Highlight

end ProductCatalog
